import Mathlib

/-!
Shallow embedding of the clip-planning core of `src/App.py` (SocialScribe).

Strings are modelled as `List Char` over ASCII data; on that fragment
Unicode NFKC normalization is the identity.  A Python exception escaping
a piece of code is modelled as `Except.error ()`; a `None` result as
`Option.none`.  Floating-point seconds are modelled exactly with `ℚ`
(only order comparisons on given values matter here).
-/

deriving instance DecidableEq for Except

/-- ASCII whitespace stripped by Python's `str.strip()` (space, tab,
newline, carriage return, vertical tab, form feed). -/
def pyIsSpace (c : Char) : Bool :=
  c == ' ' || c == '\t' || c == '\n' || c == '\r' || c == Char.ofNat 11 || c == Char.ofNat 12

/-- Python `str.strip()`: remove leading and trailing whitespace. -/
def pyStripList (cs : List Char) : List Char :=
  ((cs.dropWhile pyIsSpace).reverse.dropWhile pyIsSpace).reverse

/-- Python `str.replace(".", ":")` as used in `parse_timecode`. -/
def dotToColon (cs : List Char) : List Char :=
  cs.map (fun c => if c = '.' then ':' else c)

/-- Helper for `pySplitBy`: returns the segment before the first separator
together with the list of the remaining segments. -/
def pySplitByA (p : Char → Bool) : List Char → List Char × List (List Char)
  | [] => ([], [])
  | c :: rest =>
    let r := pySplitByA p rest
    if p c then ([], r.1 :: r.2) else (c :: r.1, r.2)

/-- Python `str.split(sep)` / `re.split` on a single-character class: split at
every separator occurrence, keeping empty segments (`"".split(":") == [""]`). -/
def pySplitBy (p : Char → Bool) (cs : List Char) : List (List Char) :=
  (pySplitByA p cs).1 :: (pySplitByA p cs).2

/-- Python `str.split(sep, 1)` restricted to the case where the separator
occurs: the text before the first separator and everything after it. -/
def pySplitOnce (sep : Char) : List Char → List Char × List Char
  | [] => ([], [])
  | c :: rest =>
    if c = sep then ([], rest)
    else
      let r := pySplitOnce sep rest
      (c :: r.1, r.2)

/-- Decimal value of an ASCII digit. -/
def digitVal (c : Char) : Nat := c.toNat - 48

/-- Body of Python `int()` digit parsing after the first digit: ASCII digits,
with single underscores allowed between digits. -/
def pyDigitsCore : List Char → Nat → Option Nat
  | [], acc => some acc
  | c :: rest, acc =>
    if c.isDigit then pyDigitsCore rest (acc * 10 + digitVal c)
    else if c = '_' then
      match rest with
      | [] => none
      | d :: rest2 =>
        if d.isDigit then pyDigitsCore rest2 (acc * 10 + digitVal d) else none
    else none

/-- Python `int()` digit-run parsing: nonempty, must start with a digit. -/
def pyDigits? : List Char → Option Nat
  | [] => none
  | c :: rest => if c.isDigit then pyDigitsCore rest (digitVal c) else none

/-- Python `int(s)` on ASCII data: strip whitespace, optional sign, then a
digit run; `none` models a `ValueError`. -/
def pyInt? (cs : List Char) : Option Int :=
  match pyStripList cs with
  | [] => none
  | c :: rest =>
    if c = '-' then (pyDigits? rest).map (fun n => -(n : Int))
    else if c = '+' then (pyDigits? rest).map (fun n => (n : Int))
    else (pyDigits? (c :: rest)).map (fun n => (n : Int))

/-- The list comprehension `[int(p) for p in tc.split(":")]`: all tokens must
convert, the first failing `int()` aborts with a `ValueError` (`none`). -/
def parseAll : List (List Char) → Option (List Int)
  | [] => some []
  | p :: ps =>
    match pyInt? p, parseAll ps with
    | some v, some vs => some (v :: vs)
    | _, _ => none

/-- `parse_timecode` from `App.py` (lines 219-228) on character lists:
strip, normalize `.` to `:`, split on `:`, convert every token with `int()`.
`Except.error ()` models the `ValueError` raised by `int()` on a non-numeric
token; `Except.ok none` is the explicit `return None` for a part count
other than 1, 2 or 3. -/
def parse_timecodeL (tc : List Char) : Except Unit (Option Int) :=
  match parseAll (pySplitBy (fun c => c == ':') (dotToColon (pyStripList tc))) with
  | none => Except.error ()
  | some ns =>
    match ns with
    | [a] => Except.ok (some a)
    | [a, b] => Except.ok (some (a * 60 + b))
    | [a, b, c] => Except.ok (some (a * 3600 + b * 60 + c))
    | _ => Except.ok none

/-- `parse_timecode` on Lean strings. -/
def parse_timecode (tc : String) : Except Unit (Option Int) :=
  parse_timecodeL tc.data

/-- The character class removed by `re.sub(r'[\\/*?:"<>|]', "", name)`. -/
def badChar (c : Char) : Bool :=
  c == '\\' || c == '/' || c == '*' || c == '?' || c == ':' ||
    c == '"' || c == '<' || c == '>' || c == '|'

/-- Python `str.rstrip(". ")`: remove trailing dots and spaces. -/
def pyRstripDotSpace (cs : List Char) : List Char :=
  (cs.reverse.dropWhile (fun c => c == '.' || c == ' ')).reverse

/-- Python `str.isprintable()` on ASCII data: the printable characters are
exactly 0x20..0x7E. -/
def pyIsPrintable (c : Char) : Bool :=
  decide (32 ≤ c.toNat ∧ c.toNat ≤ 126)

/-- `unicodedata.normalize("NFKC", name)`: the identity on the ASCII data
this development models. -/
def nfkc (cs : List Char) : List Char := cs

/-- `sanitize_name` from `App.py` (lines 30-37) on character lists. -/
def sanitize_nameL (name : List Char) : List Char :=
  if name = [] then "Unknown".data
  else
    let n1 := nfkc name
    let n2 := n1.filter (fun c => !badChar c)
    let n3 := pyRstripDotSpace n2
    let n4 := n3.filter pyIsPrintable
    let n5 := pyStripList n4
    if n5 = [] then "Unknown".data else n5

/-- `sanitize_name` on Lean strings. -/
def sanitize_name (s : String) : String :=
  String.mk (sanitize_nameL s.data)

/-- The composed transformation of the non-trivial branch of
`sanitize_name`, before the final empty-string fallback. -/
def sanCore (x : List Char) : List Char :=
  pyStripList ((pyRstripDotSpace (x.filter (fun c => !badChar c))).filter
    pyIsPrintable)

/-- Decimal digit character, as produced by Python `str()` of an integer. -/
def digitChar : Nat → Char
  | 0 => '0'
  | 1 => '1'
  | 2 => '2'
  | 3 => '3'
  | 4 => '4'
  | 5 => '5'
  | 6 => '6'
  | 7 => '7'
  | 8 => '8'
  | _ => '9'

/-- Fuel-driven helper for `natDigits`; any fuel above the value of `n`
computes the full decimal expansion. -/
def natDigitsAux (n : Nat) : Nat → List Char
  | 0 => []
  | fuel + 1 =>
    if n < 10 then [digitChar n]
    else natDigitsAux (n / 10) fuel ++ [digitChar (n % 10)]

/-- Decimal representation of a natural number, as produced by Python
`str()` inside the f-string that builds output filenames. -/
def natDigits (n : Nat) : List Char :=
  natDigitsAux n (n + 1)

/-- Decimal value of a digit string (most significant digit first). -/
def decVal (cs : List Char) : Nat :=
  cs.foldl (fun a c => a * 10 + digitVal c) 0

/-- The f-string
`f"{col_clean}_{clean_channel}_{clean_title}_part{idxp+1}.mp4"`
(`App.py` line 318). -/
def fname (colc chan title : List Char) (idx : Nat) : List Char :=
  colc ++ "_".data ++ chan ++ "_".data ++ title ++ "_part".data ++
    natDigits idx ++ ".mp4".data

/-- One planned clip extraction: `(ssec, esec, outpath)` of `App.py`. -/
structure ClipJob where
  start_sec : Int
  end_sec : Int
  filename : List Char
deriving DecidableEq

/-- `sanitize_name(col.split("(")[0].strip())` (`App.py` line 317): the
sanitized column label used in output filenames. -/
def sanLabel (col : List Char) : List Char :=
  sanitize_nameL (pyStripList (col.takeWhile (fun c => c != '(')))

/-- The inner part loop of `process_excel_to_zip` (lines 309-318) over the
enumerated parts of one cell: parts without `-` are skipped; each other part
is split at its first `-`; a `ValueError` from `parse_timecode` propagates
(`Except.error`); a `None` timecode skips the part; otherwise the part
contributes one job whose filename uses the part's original 1-based index. -/
def plan_parts (colc chan title : List Char) :
    List (Nat × List Char) → Except Unit (List ClipJob)
  | [] => Except.ok []
  | (i, p) :: rest =>
    if '-' ∈ p then
      match parse_timecodeL (pySplitOnce '-' p).1,
            parse_timecodeL (pySplitOnce '-' p).2 with
      | Except.error _, _ => Except.error ()
      | Except.ok _, Except.error _ => Except.error ()
      | Except.ok none, Except.ok _ => plan_parts colc chan title rest
      | Except.ok (some _), Except.ok none => plan_parts colc chan title rest
      | Except.ok (some a), Except.ok (some b) =>
        Except.map
          (fun js => ClipJob.mk a b (fname colc chan title (i + 1)) :: js)
          (plan_parts colc chan title rest)
    else plan_parts colc chan title rest

/-- Planning of one timecode cell (`App.py` lines 302-318): `NaN` cells are
handled by the caller; the stripped text is discarded when empty or without
`-`; otherwise it is split on `/` or `,` and the parts are enumerated. -/
def plan_cellL (cellText col chan title : List Char) : Except Unit (List ClipJob) :=
  let text := pyStripList cellText
  if text = [] ∨ '-' ∉ text then Except.ok []
  else
    plan_parts (sanLabel col) chan title
      (pySplitBy (fun c => c == '/' || c == ',') text).enum

/-- Cell planning on Lean strings. -/
def plan_cell (cellText col chan title : String) : Except Unit (List ClipJob) :=
  plan_cellL cellText.data col.data chan.data title.data

/-- The column loop of `process_excel_to_zip` (lines 301-318) for one row:
each entry is a (column label, cell) pair, `none` standing for a `NaN`
cell (skipped).  Cells are processed left to right; an uncaught exception
anywhere aborts the row's processing. -/
def plan_rowL (chan title : List Char) :
    List (List Char × Option (List Char)) → Except Unit (List ClipJob)
  | [] => Except.ok []
  | (_, none) :: rest => plan_rowL chan title rest
  | (col, some cellText) :: rest =>
    match plan_cellL cellText col chan title, plan_rowL chan title rest with
    | Except.error _, _ => Except.error ()
    | Except.ok _, Except.error _ => Except.error ()
    | Except.ok js, Except.ok rs => Except.ok (js ++ rs)

/-- `trim_clip` from `App.py` (lines 230-240): clamp the start up to `0`,
clamp the end down to the source duration, refuse the range if the clamped
start is not before the clamped end (`return False`, no file written),
otherwise write the subclip (`some` interval). -/
def trim_clip (duration : ℚ) (start_s end_s : Int) : Option (ℚ × ℚ) :=
  let s : ℚ := max 0 (start_s : ℚ)
  let e : ℚ := min duration (end_s : ℚ)
  if s ≥ e then none else some (s, e)

/-- The clamping described by the spec (section 3): both bounds forced into
`[0, duration]`. -/
def specClamp (duration : ℚ) (x : Int) : ℚ :=
  min duration (max 0 (x : ℚ))

/-- The execute-and-collect loop of `process_excel_to_zip`
(lines 319-326) over one row's jobs: a job whose output path already exists
is skipped entirely; otherwise `trim_clip` runs (writing the file exactly
when it returns `True`) and the output path is appended to `created_files`
regardless of `trim_clip`'s result.  Returns the files present after the
loop and the collected `created_files`. -/
def run_jobs (d : ℚ) (fs : List (List Char)) :
    List ClipJob → List (List Char) × List (List Char)
  | [] => (fs, [])
  | j :: rest =>
    if j.filename ∈ fs then
      run_jobs d fs rest
    else
      match trim_clip d j.start_sec j.end_sec with
      | some _ =>
        let r := run_jobs d (fs ++ [j.filename]) rest
        (r.1, j.filename :: r.2)
      | none =>
        let r := run_jobs d fs rest
        (r.1, j.filename :: r.2)

/-- The row cleanup of `process_excel_to_zip` (lines 328-333): the
downloaded temporary video is removed only for a non-local source; a local
source file is never touched. -/
def row_cleanup (is_local_file : Bool) (video_path : List Char)
    (fs : List (List Char)) : List (List Char) :=
  if is_local_file = false ∧ video_path ≠ [] ∧ video_path ∈ fs then
    fs.erase video_path
  else fs

/-- File-system effect of processing one row's jobs followed by the row
cleanup. -/
def process_row_fs (is_local_file : Bool) (d : ℚ) (video_path : List Char)
    (jobs : List ClipJob) (fs : List (List Char)) : List (List Char) :=
  row_cleanup is_local_file video_path (run_jobs d fs jobs).1

/-- Python slice `s[a:b]` on character lists (non-negative bounds). -/
def pySlice (a b : Nat) (cs : List Char) : List Char :=
  (cs.take b).drop a

/-- The upload-date normalization of `build_report_from_urls`
(`App.py` lines 144-151): `upload_date` starts out as the empty string and
is rearranged to `raw[6:8]-raw[4:6]-raw[0:4]` whenever the raw value is a
nonempty string of length at least 8; slicing never raises, so the
`except` fallback is unreachable.  `none` models a missing/falsy raw value. -/
def normalize_upload_date (raw : Option (List Char)) : List Char :=
  match raw with
  | none => []
  | some s =>
    if s ≠ [] ∧ 8 ≤ s.length then
      pySlice 6 8 s ++ "-".data ++ pySlice 4 6 s ++ "-".data ++ pySlice 0 4 s
    else []


/-! ### Basic character and list lemmas -/

theorem digit_ne {c x : Char} (h : c.isDigit = true) (hx : x.isDigit = false) :
    c ≠ x := by
  intro hc
  subst hc
  rw [h] at hx
  cases hx

theorem digit_not_space {c : Char} (h : c.isDigit = true) : pyIsSpace c = false := by
  cases hs : pyIsSpace c
  · rfl
  · exfalso
    simp only [pyIsSpace, Bool.or_eq_true, beq_iff_eq] at hs
    rcases hs with ((((rfl | rfl) | rfl) | rfl) | rfl) | rfl <;> exact absurd h (by decide)

theorem dropWhile_eq_self_of_all {p : Char → Bool} :
    ∀ {l : List Char}, (∀ c ∈ l, p c = false) → l.dropWhile p = l
  | [], _ => rfl
  | c :: t, h => by
    have hc : p c = false := h c (List.mem_cons_self c t)
    simp [List.dropWhile_cons, hc]

theorem pyStripList_eq_self {l : List Char} (h : ∀ c ∈ l, pyIsSpace c = false) :
    pyStripList l = l := by
  have h1 : l.dropWhile pyIsSpace = l := dropWhile_eq_self_of_all h
  have h2 : l.reverse.dropWhile pyIsSpace = l.reverse :=
    dropWhile_eq_self_of_all (fun c hc => h c (List.mem_reverse.mp hc))
  simp [pyStripList, h1, h2]

theorem dotToColon_append (a b : List Char) :
    dotToColon (a ++ b) = dotToColon a ++ dotToColon b := by
  simp [dotToColon]

theorem dotToColon_of_no_dot {l : List Char} (h : ∀ c ∈ l, c ≠ '.') :
    dotToColon l = l := by
  unfold dotToColon
  have : ∀ c ∈ l, (if c = '.' then ':' else c) = id c := by
    intro c hc
    simp [h c hc]
  rw [List.map_congr_left this, List.map_id]

/-! ### Splitter lemmas -/

theorem pySplitByA_no_sep {p : Char → Bool} :
    ∀ {l : List Char}, (∀ c ∈ l, p c = false) → pySplitByA p l = (l, [])
  | [], _ => rfl
  | c :: t, h => by
    have hc := h c (List.mem_cons_self c t)
    have ht := pySplitByA_no_sep (fun x hx => h x (List.mem_cons_of_mem c hx))
    simp [pySplitByA, hc, ht]

theorem pySplitByA_append {p : Char → Bool} {s : Char} (hs : p s = true) :
    ∀ {d : List Char}, (∀ c ∈ d, p c = false) → ∀ rest : List Char,
      pySplitByA p (d ++ s :: rest) =
        ([], (pySplitByA p rest).1 :: (pySplitByA p rest).2).map (fun x => d ++ x) id
  | [], _, rest => by simp [pySplitByA, hs]
  | c :: t, h, rest => by
    have hc := h c (List.mem_cons_self c t)
    have ht := pySplitByA_append hs (fun x hx => h x (List.mem_cons_of_mem c hx)) rest
    simp [pySplitByA, hc, ht]

theorem pySplitBy_no_sep {p : Char → Bool} {l : List Char}
    (h : ∀ c ∈ l, p c = false) : pySplitBy p l = [l] := by
  simp [pySplitBy, pySplitByA_no_sep h]

theorem pySplitBy_append {p : Char → Bool} {s : Char} {d : List Char}
    (hs : p s = true) (h : ∀ c ∈ d, p c = false) (rest : List Char) :
    pySplitBy p (d ++ s :: rest) = d :: pySplitBy p rest := by
  simp [pySplitBy, pySplitByA_append hs h rest]

/-! ### Python int() on digit strings -/

theorem pyDigitsCore_digits :
    ∀ {l : List Char} (acc : Nat), l.all Char.isDigit = true →
      pyDigitsCore l acc = some (l.foldl (fun a c => a * 10 + digitVal c) acc)
  | [], _, _ => rfl
  | c :: t, acc, h => by
    rw [List.all_cons, Bool.and_eq_true] at h
    rw [pyDigitsCore.eq_def]
    simp [h.1, pyDigitsCore_digits (acc * 10 + digitVal c) h.2]

theorem pyDigits?_digits {l : List Char} (hne : l ≠ [])
    (h : l.all Char.isDigit = true) : pyDigits? l = some (decVal l) := by
  cases l with
  | nil => cases hne rfl
  | cons c t =>
    rw [List.all_cons, Bool.and_eq_true] at h
    simp [pyDigits?, h.1, pyDigitsCore_digits (digitVal c) h.2, decVal]

theorem pyInt?_digits {l : List Char} (hne : l ≠ [])
    (h : l.all Char.isDigit = true) : pyInt? l = some ((decVal l : Int)) := by
  have hall : ∀ c ∈ l, c.isDigit = true := by
    intro c hc
    exact List.all_eq_true.mp h c hc
  have hstrip : pyStripList l = l :=
    pyStripList_eq_self (fun c hc => digit_not_space (hall c hc))
  cases l with
  | nil => cases hne rfl
  | cons c t =>
    have hc : c.isDigit = true := hall c (List.mem_cons_self c t)
    have h1 : c ≠ '-' := digit_ne hc (by decide)
    have h2 : c ≠ '+' := digit_ne hc (by decide)
    simp [pyInt?, hstrip, h1, h2, pyDigits?_digits hne h]

/-! ### parse_timecode on well-formed tokens -/

theorem parse_timecodeL_digits {d : List Char} (h : d.all Char.isDigit = true)
    (hne : d ≠ []) : parse_timecodeL d = Except.ok (some ((decVal d : Int))) := by
  have hall := List.all_eq_true.mp h
  have hstrip : pyStripList d = d :=
    pyStripList_eq_self (fun c hc => digit_not_space (hall c hc))
  have hdot : dotToColon d = d :=
    dotToColon_of_no_dot (fun c hc => digit_ne (hall c hc) (by decide))
  have hsplit : pySplitBy (fun c => c == ':') d = [d] :=
    pySplitBy_no_sep
      (fun c hc => beq_eq_false_iff_ne.mpr (digit_ne (hall c hc) (by decide)))
  unfold parse_timecodeL
  rw [hstrip, hdot, hsplit]
  simp [parseAll, pyInt?_digits hne h]

theorem sep_not_space {sep : Char} (hsep : sep = ':' ∨ sep = '.') :
    pyIsSpace sep = false := by
  rcases hsep with rfl | rfl <;> decide

theorem dotToColon_sep_cons {sep : Char} (hsep : sep = ':' ∨ sep = '.')
    (l : List Char) : dotToColon (sep :: l) = ':' :: dotToColon l := by
  have : (if sep = '.' then ':' else sep) = ':' := by
    rcases hsep with rfl | rfl <;> decide
  simp [dotToColon, this]

theorem parse_timecodeL_two {d1 d2 : List Char} {sep : Char}
    (h1 : d1.all Char.isDigit = true) (h2 : d2.all Char.isDigit = true)
    (n1 : d1 ≠ []) (n2 : d2 ≠ []) (hsep : sep = ':' ∨ sep = '.') :
    parse_timecodeL (d1 ++ sep :: d2) =
      Except.ok (some ((decVal d1 : Int) * 60 + (decVal d2 : Int))) := by
  have hall1 := List.all_eq_true.mp h1
  have hall2 := List.all_eq_true.mp h2
  have hstrip : pyStripList (d1 ++ sep :: d2) = d1 ++ sep :: d2 := by
    refine pyStripList_eq_self ?_
    intro c hc
    rcases List.mem_append.mp hc with hc1 | hc2
    · exact digit_not_space (hall1 c hc1)
    · rcases List.mem_cons.mp hc2 with rfl | hc3
      · exact sep_not_space hsep
      · exact digit_not_space (hall2 c hc3)
  have hdot : dotToColon (d1 ++ sep :: d2) = d1 ++ ':' :: d2 := by
    rw [dotToColon_append, dotToColon_sep_cons hsep,
      dotToColon_of_no_dot (fun c hc => digit_ne (hall1 c hc) (by decide)),
      dotToColon_of_no_dot (fun c hc => digit_ne (hall2 c hc) (by decide))]
  have hsplit : pySplitBy (fun c => c == ':') (d1 ++ ':' :: d2) = [d1, d2] := by
    rw [@pySplitBy_append (fun c => c == ':') ':' d1 (by decide)
        (fun c hc => beq_eq_false_iff_ne.mpr (digit_ne (hall1 c hc) (by decide))) d2,
      @pySplitBy_no_sep (fun c => c == ':') d2
        (fun c hc => beq_eq_false_iff_ne.mpr (digit_ne (hall2 c hc) (by decide)))]
  unfold parse_timecodeL
  rw [hstrip, hdot, hsplit]
  simp [parseAll, pyInt?_digits n1 h1, pyInt?_digits n2 h2]

theorem parse_timecodeL_three {d1 d2 d3 : List Char} {sep : Char}
    (h1 : d1.all Char.isDigit = true) (h2 : d2.all Char.isDigit = true)
    (h3 : d3.all Char.isDigit = true)
    (n1 : d1 ≠ []) (n2 : d2 ≠ []) (n3 : d3 ≠ [])
    (hsep : sep = ':' ∨ sep = '.') :
    parse_timecodeL (d1 ++ sep :: (d2 ++ sep :: d3)) =
      Except.ok (some ((decVal d1 : Int) * 3600 +
        (decVal d2 : Int) * 60 + (decVal d3 : Int))) := by
  have hall1 := List.all_eq_true.mp h1
  have hall2 := List.all_eq_true.mp h2
  have hall3 := List.all_eq_true.mp h3
  have hstrip : pyStripList (d1 ++ sep :: (d2 ++ sep :: d3)) =
      d1 ++ sep :: (d2 ++ sep :: d3) := by
    refine pyStripList_eq_self ?_
    intro c hc
    rcases List.mem_append.mp hc with hc1 | hc2
    · exact digit_not_space (hall1 c hc1)
    · rcases List.mem_cons.mp hc2 with rfl | hc3
      · exact sep_not_space hsep
      · rcases List.mem_append.mp hc3 with hc4 | hc5
        · exact digit_not_space (hall2 c hc4)
        · rcases List.mem_cons.mp hc5 with rfl | hc6
          · exact sep_not_space hsep
          · exact digit_not_space (hall3 c hc6)
  have hdot : dotToColon (d1 ++ sep :: (d2 ++ sep :: d3)) =
      d1 ++ ':' :: (d2 ++ ':' :: d3) := by
    rw [dotToColon_append, dotToColon_sep_cons hsep, dotToColon_append,
      dotToColon_sep_cons hsep,
      dotToColon_of_no_dot (fun c hc => digit_ne (hall1 c hc) (by decide)),
      dotToColon_of_no_dot (fun c hc => digit_ne (hall2 c hc) (by decide)),
      dotToColon_of_no_dot (fun c hc => digit_ne (hall3 c hc) (by decide))]
  have hsplit : pySplitBy (fun c => c == ':') (d1 ++ ':' :: (d2 ++ ':' :: d3)) =
      [d1, d2, d3] := by
    rw [@pySplitBy_append (fun c => c == ':') ':' d1 (by decide)
        (fun c hc => beq_eq_false_iff_ne.mpr (digit_ne (hall1 c hc) (by decide)))
        (d2 ++ ':' :: d3),
      @pySplitBy_append (fun c => c == ':') ':' d2 (by decide)
        (fun c hc => beq_eq_false_iff_ne.mpr (digit_ne (hall2 c hc) (by decide))) d3,
      @pySplitBy_no_sep (fun c => c == ':') d3
        (fun c hc => beq_eq_false_iff_ne.mpr (digit_ne (hall3 c hc) (by decide)))]
  unfold parse_timecodeL
  rw [hstrip, hdot, hsplit]
  simp [parseAll, pyInt?_digits n1 h1, pyInt?_digits n2 h2, pyInt?_digits n3 h3]

/-- Claim C2: every timecode token of 1, 2 or 3 numeric parts separated by
`:` (or by `.`, which is normalized to `:` before splitting) parses to `S`,
`M*60+S` and `H*3600+M*60+S` seconds respectively. -/
theorem parse_timecode_valid_forms (d1 d2 d3 : List Char) (sep : Char)
    (h1 : d1.all Char.isDigit = true) (h2 : d2.all Char.isDigit = true)
    (h3 : d3.all Char.isDigit = true)
    (n1 : d1 ≠ []) (n2 : d2 ≠ []) (n3 : d3 ≠ [])
    (hsep : sep = ':' ∨ sep = '.') :
    parse_timecodeL d1 = Except.ok (some ((decVal d1 : Int))) ∧
    parse_timecodeL (d1 ++ sep :: d2) =
      Except.ok (some ((decVal d1 : Int) * 60 + (decVal d2 : Int))) ∧
    parse_timecodeL (d1 ++ sep :: (d2 ++ sep :: d3)) =
      Except.ok (some ((decVal d1 : Int) * 3600 +
        (decVal d2 : Int) * 60 + (decVal d3 : Int))) :=
  ⟨parse_timecodeL_digits h1 n1,
   parse_timecodeL_two h1 h2 n1 n2 hsep,
   parse_timecodeL_three h1 h2 h3 n1 n2 n3 hsep⟩

/-- Witness for C2 at the concrete token `1:02:05` (3725 seconds). -/
theorem parse_timecode_valid_forms_witness :
    parse_timecodeL (['1'] ++ ':' :: (['0', '2'] ++ ':' :: ['0', '5'])) =
      Except.ok (some 3725) := by
  have h := (parse_timecode_valid_forms ['1'] ['0', '2'] ['0', '5'] ':'
    (by decide) (by decide) (by decide) (by decide) (by decide) (by decide)
    (Or.inl rfl)).2.2
  exact h.trans (by decide)

/-! ### Error propagation and skipping in the part loop -/

/-- Claim C1 counterexample: in the cell `1-2,x-3,4-5` the middle part's
start token `x` is non-numeric, and the resulting `ValueError` from `int()`
propagates out of the cell-splitting step instead of being skipped — the
valid sibling parts `1-2` and `4-5` yield no jobs either. -/
theorem plan_cell_error_propagates :
    plan_cell "1-2,x-3,4-5" "Clip" "Chan" "Title" = Except.error () := by decide

/-- Claim C1 as amended: a part whose tokens convert without a `ValueError`
but whose timecode is `None` (part count not 1, 2 or 3), or a part without
any `-`, is skipped individually, leaving every sibling part's contribution
unchanged.  (A non-numeric token instead raises, see the counterexample.) -/
theorem plan_parts_skips_bad_part (colc chan title : List Char)
    (l1 l2 : List (Nat × List Char)) (i : Nat) (p : List Char)
    (hskip : '-' ∉ p ∨
      ∃ a b, parse_timecodeL (pySplitOnce '-' p).1 = Except.ok a ∧
        parse_timecodeL (pySplitOnce '-' p).2 = Except.ok b ∧
        (a = none ∨ b = none)) :
    plan_parts colc chan title (l1 ++ (i, p) :: l2) =
      plan_parts colc chan title (l1 ++ l2) := by
  induction l1 with
  | nil =>
    rw [List.nil_append, List.nil_append]
    rcases hskip with hnd | ⟨a, b, ha, hb, hab⟩
    · rw [plan_parts.eq_def]
      simp [hnd]
    · rw [plan_parts.eq_def]
      rcases hab with rfl | rfl
      · simp [ha, hb]
      · cases a with
        | none => simp [ha, hb]
        | some av => simp [ha, hb]
  | cons hd t ih =>
    obtain ⟨j, q⟩ := hd
    rw [List.cons_append, List.cons_append, plan_parts.eq_def]
    conv_rhs => rw [plan_parts.eq_def]
    by_cases hq : '-' ∈ q
    · simp only [hq, if_true]
      cases hA : parse_timecodeL (pySplitOnce '-' q).1 with
      | error e => rfl
      | ok av =>
        cases hB : parse_timecodeL (pySplitOnce '-' q).2 with
        | error e => cases av <;> rfl
        | ok bv =>
          cases av with
          | none => exact ih
          | some av' =>
            cases bv with
            | none => exact ih
            | some bv' => rw [ih]
    · simp only [hq, if_false]
      exact ih

/-- Witness for the amended C1: in `1-2 / 1:2:3:4-5 / 7-9` the middle part
has a 4-component (all numeric) start token; it is dropped while its
siblings are unaffected. -/
theorem plan_parts_skips_bad_part_witness :
    plan_parts "C".data "A".data "B".data
        ([(0, "1-2".data)] ++ (1, "1:2:3:4-5".data) :: [(2, "7-9".data)]) =
      plan_parts "C".data "A".data "B".data ([(0, "1-2".data)] ++ [(2, "7-9".data)]) :=
  plan_parts_skips_bad_part "C".data "A".data "B".data
    [(0, "1-2".data)] [(2, "7-9".data)] 1 "1:2:3:4-5".data
    (Or.inr ⟨none, some 5, by decide, by decide, Or.inl rfl⟩)

/-! ### Decimal representations and filename injectivity -/

theorem digitChar_isDigit (m : Nat) : (digitChar m).isDigit = true := by
  unfold digitChar
  split <;> decide

theorem digitVal_digitChar {m : Nat} (h : m < 10) :
    digitVal (digitChar m) = m := by
  interval_cases m <;> decide

theorem decVal_append_singleton (l : List Char) (c : Char) :
    decVal (l ++ [c]) = decVal l * 10 + digitVal c := by
  simp [decVal, List.foldl_append]

theorem natDigitsAux_spec :
    ∀ (fuel n : Nat), n < fuel →
      (natDigitsAux n fuel).all Char.isDigit = true ∧
      decVal (natDigitsAux n fuel) = n ∧ natDigitsAux n fuel ≠ []
  | 0, n, h => absurd h (by omega)
  | fuel + 1, n, h => by
    rw [natDigitsAux]
    by_cases h10 : n < 10
    · refine ⟨by simp [h10, digitChar_isDigit], ?_, by simp [h10]⟩
      simp only [h10, if_true]
      show decVal [digitChar n] = n
      have : decVal [digitChar n] = digitVal (digitChar n) := by
        simp [decVal, digitVal]
      rw [this, digitVal_digitChar h10]
    · have hfuel : n / 10 < fuel := by omega
      obtain ⟨ha, hv, hne⟩ := natDigitsAux_spec fuel (n / 10) hfuel
      simp only [h10, if_false]
      refine ⟨?_, ?_, by simp⟩
      · rw [List.all_append, ha]
        simp [digitChar_isDigit]
      · rw [decVal_append_singleton, hv, digitVal_digitChar (by omega)]
        omega

theorem natDigits_all (n : Nat) : (natDigits n).all Char.isDigit = true :=
  (natDigitsAux_spec (n + 1) n (by omega)).1

theorem decVal_natDigits (n : Nat) : decVal (natDigits n) = n :=
  (natDigitsAux_spec (n + 1) n (by omega)).2.1

theorem natDigits_ne_nil (n : Nat) : natDigits n ≠ [] :=
  (natDigitsAux_spec (n + 1) n (by omega)).2.2

theorem natDigits_inj {i j : Nat} (h : natDigits i = natDigits j) : i = j := by
  have hi := decVal_natDigits i
  rw [h, decVal_natDigits] at hi
  omega

theorem digit_run_det (xs : List Char) :
    ∀ (ys u v : List Char), xs.all Char.isDigit = true →
      ys.all Char.isDigit = true → u.head? = some 't' → v.head? = some 't' →
      xs ++ u = ys ++ v → xs = ys ∧ u = v := by
  induction xs with
  | nil =>
    intro ys u v _ hy hu _ h
    rw [List.nil_append] at h
    cases ys with
    | nil => exact ⟨rfl, by rw [h, List.nil_append]⟩
    | cons y t =>
      exfalso
      rw [List.all_cons, Bool.and_eq_true] at hy
      rw [h, List.cons_append, List.head?_cons] at hu
      have hy' : y = 't' := by injection hu
      subst hy'
      exact absurd hy.1 (by decide)
  | cons x xs' ih =>
    intro ys u v hx hy hu hv h
    rw [List.all_cons, Bool.and_eq_true] at hx
    cases ys with
    | nil =>
      exfalso
      rw [List.nil_append] at h
      rw [← h, List.cons_append, List.head?_cons] at hv
      have hx' : x = 't' := by injection hv
      subst hx'
      exact absurd hx.1 (by decide)
    | cons y t =>
      rw [List.cons_append, List.cons_append] at h
      injection h with h1 h2
      rw [List.all_cons, Bool.and_eq_true] at hy
      obtain ⟨hxs, huv⟩ := ih t u v hx.2 hy.2 hu hv h2
      exact ⟨by rw [h1, hxs], huv⟩

theorem reverse_head_part (b : List Char) :
    ((b ++ "_part".data).reverse).head? = some 't' := by
  rw [List.reverse_append]
  rfl

theorem append_digits_inj (B1 B2 D1 D2 : List Char)
    (hB1 : (B1.reverse).head? = some 't') (hB2 : (B2.reverse).head? = some 't')
    (hD1 : D1.all Char.isDigit = true) (hD2 : D2.all Char.isDigit = true)
    (h : B1 ++ D1 = B2 ++ D2) : B1 = B2 ∧ D1 = D2 := by
  have h2 := congrArg List.reverse h
  rw [List.reverse_append, List.reverse_append] at h2
  obtain ⟨hD, hB⟩ := digit_run_det D1.reverse D2.reverse B1.reverse B2.reverse
    (by rw [List.all_reverse]; exact hD1) (by rw [List.all_reverse]; exact hD2)
    hB1 hB2 h2
  exact ⟨List.reverse_injective hB, List.reverse_injective hD⟩

theorem fname_inj {colc1 colc2 chan title : List Char} {i j : Nat}
    (h : fname colc1 chan title i = fname colc2 chan title j) :
    colc1 = colc2 ∧ i = j := by
  unfold fname at h
  have h1 := List.append_cancel_right h
  obtain ⟨hstuff, hD⟩ := append_digits_inj
    (colc1 ++ "_".data ++ chan ++ "_".data ++ title ++ "_part".data)
    (colc2 ++ "_".data ++ chan ++ "_".data ++ title ++ "_part".data)
    (natDigits i) (natDigits j)
    (reverse_head_part (colc1 ++ "_".data ++ chan ++ "_".data ++ title))
    (reverse_head_part (colc2 ++ "_".data ++ chan ++ "_".data ++ title))
    (natDigits_all i) (natDigits_all j) h1
  have hij : i = j := natDigits_inj hD
  have hB := List.append_cancel_right hstuff
  have hB2 := List.append_cancel_right hB
  have hB3 := List.append_cancel_right hB2
  have hB4 := List.append_cancel_right hB3
  have hB5 := List.append_cancel_right hB4
  exact ⟨hB5, hij⟩

/-! ### Output names within a cell and a row -/

theorem plan_parts_names_sublist (colc chan title : List Char)
    (l : List (Nat × List Char)) :
    ∀ (jobs : List ClipJob), plan_parts colc chan title l = Except.ok jobs →
      List.Sublist (jobs.map ClipJob.filename)
        (l.map (fun q => fname colc chan title (q.1 + 1))) := by
  induction l with
  | nil =>
    intro jobs h
    rw [plan_parts.eq_def] at h
    simp only [Except.ok.injEq] at h
    subst h
    simp
  | cons hd t ih =>
    obtain ⟨i, p⟩ := hd
    intro jobs h
    rw [plan_parts.eq_def] at h
    simp only at h
    by_cases hp : '-' ∈ p
    · rw [if_pos hp] at h
      cases hA : parse_timecodeL (pySplitOnce '-' p).1 with
      | error e =>
        rw [hA] at h
        simp at h
      | ok av =>
        cases hB : parse_timecodeL (pySplitOnce '-' p).2 with
        | error e =>
          rw [hA, hB] at h
          cases av <;> simp at h
        | ok bv =>
          rw [hA, hB] at h
          cases av with
          | none =>
            simp only at h
            exact List.Sublist.cons _ (ih jobs h)
          | some av' =>
            cases bv with
            | none =>
              simp only at h
              exact List.Sublist.cons _ (ih jobs h)
            | some bv' =>
              simp only at h
              cases hrec : plan_parts colc chan title t with
              | error e =>
                rw [hrec] at h
                simp [Except.map] at h
              | ok js =>
                rw [hrec] at h
                have h' : Except.ok (ClipJob.mk av' bv'
                    (fname colc chan title (i + 1)) :: js) = Except.ok jobs := h
                simp only [Except.ok.injEq] at h'
                subst h'
                simp only [List.map_cons]
                exact List.Sublist.cons₂ _ (ih js hrec)
    · rw [if_neg hp] at h
      exact List.Sublist.cons _ (ih jobs h)

theorem plan_cellL_names_sublist (cellText col chan title : List Char)
    (jobs : List ClipJob)
    (h : plan_cellL cellText col chan title = Except.ok jobs) :
    List.Sublist (jobs.map ClipJob.filename)
      (((pySplitBy (fun c => c == '/' || c == ',') (pyStripList cellText)).enum).map
        (fun q => fname (sanLabel col) chan title (q.1 + 1))) := by
  unfold plan_cellL at h
  by_cases hg : pyStripList cellText = [] ∨ '-' ∉ pyStripList cellText
  · rw [if_pos hg] at h
    simp only [Except.ok.injEq] at h
    subst h
    simp
  · rw [if_neg hg] at h
    exact plan_parts_names_sublist _ chan title _ jobs h

/-- Claim C3: part indices in output filenames are the 1-based positions of
the originating parts among all parts of the cell: the concrete cell
`00:01-00:12,garbage,00:20-00:30` yields exactly the two jobs `part1` and
`part3` (never renumbered), and in general the filename list of any planned
cell is a sublist of the position-indexed name list of all its parts. -/
theorem cell_parts_keep_positions :
    plan_cell "00:01-00:12,garbage,00:20-00:30" "Clip" "Chan" "Title" =
      Except.ok
        [ClipJob.mk 1 12 "Clip_Chan_Title_part1.mp4".data,
         ClipJob.mk 20 30 "Clip_Chan_Title_part3.mp4".data] ∧
    ∀ (cellText col chan title : List Char) (jobs : List ClipJob),
      plan_cellL cellText col chan title = Except.ok jobs →
      List.Sublist (jobs.map ClipJob.filename)
        (((pySplitBy (fun c => c == '/' || c == ',') (pyStripList cellText)).enum).map
          (fun q => fname (sanLabel col) chan title (q.1 + 1))) :=
  ⟨by decide,
   fun cellText col chan title jobs h =>
     plan_cellL_names_sublist cellText col chan title jobs h⟩

/-- Witness for C3: the sublist property evaluated on the concrete cell. -/
theorem cell_parts_keep_positions_witness :
    List.Sublist
      (([ClipJob.mk 1 12 "Clip_Chan_Title_part1.mp4".data,
         ClipJob.mk 20 30 "Clip_Chan_Title_part3.mp4".data]).map ClipJob.filename)
      (((pySplitBy (fun c => c == '/' || c == ',')
          (pyStripList "00:01-00:12,garbage,00:20-00:30".data)).enum).map
        (fun q => fname (sanLabel "Clip".data) "Chan".data "Title".data (q.1 + 1))) :=
  cell_parts_keep_positions.2 "00:01-00:12,garbage,00:20-00:30".data "Clip".data
    "Chan".data "Title".data _ (by decide)

theorem plan_cellL_names_pairwise (cellText col chan title : List Char)
    (jobs : List ClipJob)
    (h : plan_cellL cellText col chan title = Except.ok jobs) :
    (jobs.map ClipJob.filename).Pairwise (· ≠ ·) := by
  have hsub := plan_cellL_names_sublist cellText col chan title jobs h
  set l := (pySplitBy (fun c => c == '/' || c == ',') (pyStripList cellText)).enum
    with hl
  have e1 : l.map (fun q => fname (sanLabel col) chan title (q.1 + 1)) =
      (l.map Prod.fst).map (fun k => fname (sanLabel col) chan title (k + 1)) := by
    rw [List.map_map]
    rfl
  have e2 : l.map Prod.fst =
      List.range (pySplitBy (fun c => c == '/' || c == ',')
        (pyStripList cellText)).length := by
    rw [hl, List.enum_map_fst]
  have hpw : (l.map (fun q => fname (sanLabel col) chan title (q.1 + 1))).Pairwise
      (· ≠ ·) := by
    rw [e1, e2]
    refine (List.pairwise_lt_range _).map _ ?_
    intro a b hab hEq
    have := (fname_inj hEq).2
    omega
  exact hpw.sublist hsub

theorem plan_cellL_names_form (cellText col chan title : List Char)
    (jobs : List ClipJob)
    (h : plan_cellL cellText col chan title = Except.ok jobs) :
    ∀ x ∈ jobs.map ClipJob.filename,
      ∃ k, x = fname (sanLabel col) chan title k := by
  intro x hx
  have hsub := plan_cellL_names_sublist cellText col chan title jobs h
  have hx2 := hsub.subset hx
  rw [List.mem_map] at hx2
  obtain ⟨q, _, hq⟩ := hx2
  exact ⟨q.1 + 1, hq.symm⟩

theorem plan_rowL_names_form (chan title : List Char)
    (cols : List (List Char × Option (List Char))) :
    ∀ (jobs : List ClipJob), plan_rowL chan title cols = Except.ok jobs →
      ∀ x ∈ jobs.map ClipJob.filename,
        ∃ c, c ∈ cols ∧ ∃ k, x = fname (sanLabel c.1) chan title k := by
  induction cols with
  | nil =>
    intro jobs h
    rw [plan_rowL.eq_def] at h
    simp only [Except.ok.injEq] at h
    subst h
    simp
  | cons hd t ih =>
    obtain ⟨col, cell?⟩ := hd
    intro jobs h
    cases cell? with
    | none =>
      rw [plan_rowL.eq_def] at h
      simp only at h
      intro x hx
      obtain ⟨c, hc, hk⟩ := ih jobs h x hx
      exact ⟨c, List.mem_cons_of_mem _ hc, hk⟩
    | some cellText =>
      rw [plan_rowL.eq_def] at h
      simp only at h
      cases hcell : plan_cellL cellText col chan title with
      | error e =>
        rw [hcell] at h
        simp at h
      | ok js =>
        cases hrow : plan_rowL chan title t with
        | error e =>
          rw [hcell, hrow] at h
          simp at h
        | ok rs =>
          rw [hcell, hrow] at h
          simp only [Except.ok.injEq] at h
          subst h
          intro x hx
          rw [List.map_append, List.mem_append] at hx
          rcases hx with hx1 | hx2
          · obtain ⟨k, hk⟩ := plan_cellL_names_form cellText col chan title js
              hcell x hx1
            exact ⟨(col, some cellText), List.mem_cons_self _ _, k, hk⟩
          · obtain ⟨c, hc, hk⟩ := ih rs hrow x hx2
            exact ⟨c, List.mem_cons_of_mem _ hc, hk⟩

/-- Claim C5 counterexample: the row with columns `Intro` and `Intro(2)`
(both sanitize to the label `Intro`) plans two jobs carrying the same
output name, so output names are not pairwise distinct within a row. -/
theorem plan_row_duplicate_names :
    plan_rowL "Chan".data "Title".data
        [("Intro".data, some "0-5".data), ("Intro(2)".data, some "7-9".data)] =
      Except.ok
        [ClipJob.mk 0 5 "Intro_Chan_Title_part1.mp4".data,
         ClipJob.mk 7 9 "Intro_Chan_Title_part1.mp4".data] ∧
    ¬ ([ClipJob.mk 0 5 "Intro_Chan_Title_part1.mp4".data,
        ClipJob.mk 7 9 "Intro_Chan_Title_part1.mp4".data].map
          ClipJob.filename).Pairwise (· ≠ ·) := by
  constructor
  · decide
  · intro hp
    rw [List.map_cons, List.pairwise_cons] at hp
    exact hp.1 _ (by simp) rfl

/-- Claim C5 as amended: the output names of a row's planned jobs are
pairwise distinct provided the sanitized column labels of the row's cells
are pairwise distinct (two columns sanitizing to the same label can
collide, see the counterexample). -/
theorem plan_row_names_distinct (chan title : List Char)
    (cols : List (List Char × Option (List Char))) (jobs : List ClipJob)
    (hlab : (cols.map (fun c => sanLabel c.1)).Pairwise (· ≠ ·))
    (h : plan_rowL chan title cols = Except.ok jobs) :
    (jobs.map ClipJob.filename).Pairwise (· ≠ ·) := by
  induction cols generalizing jobs with
  | nil =>
    rw [plan_rowL.eq_def] at h
    simp only [Except.ok.injEq] at h
    subst h
    simp
  | cons hd t ih =>
    obtain ⟨col, cell?⟩ := hd
    rw [List.map_cons, List.pairwise_cons] at hlab
    cases cell? with
    | none =>
      rw [plan_rowL.eq_def] at h
      simp only at h
      exact ih jobs hlab.2 h
    | some cellText =>
      rw [plan_rowL.eq_def] at h
      simp only at h
      cases hcell : plan_cellL cellText col chan title with
      | error e =>
        rw [hcell] at h
        simp at h
      | ok js =>
        cases hrow : plan_rowL chan title t with
        | error e =>
          rw [hcell, hrow] at h
          simp at h
        | ok rs =>
          rw [hcell, hrow] at h
          simp only [Except.ok.injEq] at h
          subst h
          rw [List.map_append, List.pairwise_append]
          refine ⟨plan_cellL_names_pairwise cellText col chan title js hcell,
            ih rs hlab.2 hrow, ?_⟩
          intro a ha b hb hEq
          obtain ⟨ka, hka⟩ := plan_cellL_names_form cellText col chan title js
            hcell a ha
          obtain ⟨c, hc, kb, hkb⟩ := plan_rowL_names_form chan title t rs hrow b hb
          rw [hka, hkb] at hEq
          have hcol := (fname_inj hEq).1
          exact hlab.1 (sanLabel c.1)
            (List.mem_map_of_mem (fun c => sanLabel c.1) hc) hcol

/-- Witness for the amended C5: a row whose two columns sanitize to the
distinct labels `Intro` and `Outro` gets pairwise distinct output names. -/
theorem plan_row_names_distinct_witness :
    (([ClipJob.mk 0 5 "Intro_Chan_Title_part1.mp4".data,
       ClipJob.mk 7 9 "Outro_Chan_Title_part1.mp4".data]).map
        ClipJob.filename).Pairwise (· ≠ ·) :=
  plan_row_names_distinct "Chan".data "Title".data
    [("Intro".data, some "0-5".data), ("Outro".data, some "7-9".data)]
    [ClipJob.mk 0 5 "Intro_Chan_Title_part1.mp4".data,
     ClipJob.mk 7 9 "Outro_Chan_Title_part1.mp4".data]
    (by simp [List.pairwise_cons]; decide) (by decide)

/-! ### The execute-and-collect loop -/

theorem run_jobs_skip (d : ℚ) (fs : List (List Char)) (j : ClipJob)
    (rest : List ClipJob) (hex : j.filename ∈ fs) :
    run_jobs d fs (j :: rest) = run_jobs d fs rest := by
  rw [run_jobs.eq_def]
  simp only
  rw [if_pos hex]

theorem run_jobs_mono (d : ℚ) (jobs : List ClipJob) :
    ∀ (fs : List (List Char)) (p : List Char), p ∈ fs →
      p ∈ (run_jobs d fs jobs).1 := by
  induction jobs with
  | nil =>
    intro fs p hp
    exact hp
  | cons a rest ih =>
    intro fs p hp
    rw [run_jobs.eq_def]
    simp only
    by_cases hex : a.filename ∈ fs
    · rw [if_pos hex]
      exact ih fs p hp
    · rw [if_neg hex]
      cases htr : trim_clip d a.start_sec a.end_sec with
      | some x =>
        simp only
        exact ih _ p (List.mem_append_left _ hp)
      | none =>
        simp only
        exact ih fs p hp

theorem run_jobs_name_mem_of_valid (d : ℚ) (jobs : List ClipJob) :
    ∀ (fs : List (List Char)) (j : ClipJob), j ∈ jobs →
      (trim_clip d j.start_sec j.end_sec).isSome = true →
      j.filename ∈ (run_jobs d fs jobs).1 := by
  induction jobs with
  | nil =>
    intro fs j hj _
    cases hj
  | cons a rest ih =>
    intro fs j hj hv
    rw [run_jobs.eq_def]
    simp only
    by_cases hex : a.filename ∈ fs
    · rw [if_pos hex]
      rcases List.mem_cons.mp hj with rfl | hj2
      · exact run_jobs_mono d rest fs j.filename hex
      · exact ih fs j hj2 hv
    · rw [if_neg hex]
      rcases List.mem_cons.mp hj with rfl | hj2
      · cases htr : trim_clip d j.start_sec j.end_sec with
        | none =>
          rw [htr] at hv
          cases hv
        | some x =>
          simp only
          exact run_jobs_mono d rest _ j.filename
            (List.mem_append_right _ (by simp))
      · cases htr : trim_clip d a.start_sec a.end_sec with
        | some x =>
          simp only
          exact ih _ j hj2 hv
        | none =>
          simp only
          exact ih fs j hj2 hv

theorem run_jobs_no_write (d : ℚ) (jobs : List ClipJob) :
    ∀ (fs : List (List Char)),
      (∀ j ∈ jobs, j.filename ∉ fs → trim_clip d j.start_sec j.end_sec = none) →
      (run_jobs d fs jobs).1 = fs := by
  induction jobs with
  | nil =>
    intro fs _
    rfl
  | cons a rest ih =>
    intro fs h
    rw [run_jobs.eq_def]
    simp only
    by_cases hex : a.filename ∈ fs
    · rw [if_pos hex]
      exact ih fs (fun j hj => h j (List.mem_cons_of_mem a hj))
    · rw [if_neg hex]
      rw [h a (List.mem_cons_self a rest) hex]
      simp only
      exact ih fs (fun j hj => h j (List.mem_cons_of_mem a hj))

theorem run_jobs_rerun_no_extract (d : ℚ) (jobs : List ClipJob)
    (fs : List (List Char)) :
    (run_jobs d (run_jobs d fs jobs).1 jobs).1 = (run_jobs d fs jobs).1 := by
  apply run_jobs_no_write
  intro j hj hnot
  cases htr : trim_clip d j.start_sec j.end_sec with
  | none => rfl
  | some x =>
    exact absurd
      (run_jobs_name_mem_of_valid d jobs fs j hj (by rw [htr]; rfl)) hnot

theorem run_jobs_created_all (d : ℚ) (jobs : List ClipJob) :
    ∀ (fs : List (List Char)), (∀ j ∈ jobs, j.filename ∉ fs) →
      (jobs.map ClipJob.filename).Pairwise (· ≠ ·) →
      (run_jobs d fs jobs).2 = jobs.map ClipJob.filename := by
  induction jobs with
  | nil =>
    intro fs _ _
    rfl
  | cons a rest ih =>
    intro fs hfresh hdist
    rw [run_jobs.eq_def]
    simp only
    rw [if_neg (hfresh a (List.mem_cons_self a rest))]
    rw [List.map_cons, List.pairwise_cons] at hdist
    cases htr : trim_clip d a.start_sec a.end_sec with
    | some x =>
      simp only
      rw [List.map_cons]
      have hfresh2 : ∀ j ∈ rest, j.filename ∉ fs ++ [a.filename] := by
        intro j hj hmem
        rcases List.mem_append.mp hmem with h1 | h2
        · exact hfresh j (List.mem_cons_of_mem a hj) h1
        · have : j.filename = a.filename := by simpa using h2
          exact hdist.1 j.filename
            (List.mem_map_of_mem ClipJob.filename hj) this.symm
      rw [ih (fs ++ [a.filename]) hfresh2 hdist.2]
    | none =>
      simp only
      rw [List.map_cons, ih fs (fun j hj => hfresh j (List.mem_cons_of_mem a hj))
        hdist.2]

/-- Claim C4 counterexample: two valid jobs whose output names collide (as
produced by the duplicate-label row of the C5 counterexample): against an
empty output folder the first job writes the file and the second valid job
is then skipped by the existence check, so not every valid job of the row
is executed. -/
theorem run_jobs_duplicate_name_skipped :
    (∀ j ∈ [ClipJob.mk 0 5 "N".data, ClipJob.mk 7 9 "N".data],
      (trim_clip 10 j.start_sec j.end_sec).isSome = true) ∧
    run_jobs 10 [] [ClipJob.mk 0 5 "N".data, ClipJob.mk 7 9 "N".data] =
      (["N".data], ["N".data]) ∧
    (run_jobs 10 [] [ClipJob.mk 0 5 "N".data, ClipJob.mk 7 9 "N".data]).2 ≠
      [ClipJob.mk 0 5 "N".data, ClipJob.mk 7 9 "N".data].map ClipJob.filename :=
  ⟨by decide, by decide, by decide⟩

/-- Claim C4 as amended: a job whose output name already exists in the
row's output folder is not re-executed (nothing extracted, nothing
collected); an output folder with no prior outputs runs every job provided
the row's job filenames are pairwise distinct (a valid job whose filename
duplicates an earlier job's output is skipped, see the counterexample);
and re-running the same job list over the file set a previous run produced
writes no file at all. -/
theorem run_jobs_exec_contract (d : ℚ) (fs : List (List Char)) (j : ClipJob)
    (rest jobs : List ClipJob)
    (hex : j.filename ∈ fs)
    (hdist : (jobs.map ClipJob.filename).Pairwise (· ≠ ·)) :
    run_jobs d fs (j :: rest) = run_jobs d fs rest ∧
    (run_jobs d [] jobs).2 = jobs.map ClipJob.filename ∧
    (run_jobs d (run_jobs d fs jobs).1 jobs).1 = (run_jobs d fs jobs).1 :=
  ⟨run_jobs_skip d fs j rest hex,
   run_jobs_created_all d jobs [] (by simp) hdist,
   run_jobs_rerun_no_extract d jobs fs⟩

/-- Witness for the amended C4 with a ten-second source, an existing file
`A` and a fresh valid job writing `B`. -/
theorem run_jobs_exec_contract_witness :
    run_jobs 10 ["A".data] (ClipJob.mk 1 2 "A".data :: []) =
      run_jobs 10 ["A".data] [] ∧
    (run_jobs 10 [] [ClipJob.mk 0 5 "B".data]).2 =
      [ClipJob.mk 0 5 "B".data].map ClipJob.filename ∧
    (run_jobs 10 (run_jobs 10 ["A".data] [ClipJob.mk 0 5 "B".data]).1
        [ClipJob.mk 0 5 "B".data]).1 =
      (run_jobs 10 ["A".data] [ClipJob.mk 0 5 "B".data]).1 :=
  run_jobs_exec_contract 10 ["A".data] (ClipJob.mk 1 2 "A".data) []
    [ClipJob.mk 0 5 "B".data] (by decide) (by simp)

/-- Claim C6 (code bug): for a 10-second source and the range 20-30 the
spec clamp gives start at least end, `trim_clip` writes no file and raises
nothing — but the loop still appends the never-created output path to
`created_files`, so the range is not discarded silently (the later archive
step fails on the missing file). -/
theorem invalid_range_not_discarded :
    specClamp 10 20 ≥ specClamp 10 30 ∧
    trim_clip 10 20 30 = none ∧
    run_jobs 10 [] [ClipJob.mk 20 30 "X".data] = ([], ["X".data]) := by
  refine ⟨by decide, by decide, by decide⟩

/-- Claim C10: executing a row's jobs only ever adds files, and the final
cleanup removes just the downloaded temporary video of a non-local source:
with a local source every pre-existing file (the source media included)
survives processing, and with a remote source every file except the
downloaded video path survives. -/
theorem process_row_preserves_sources (d : ℚ) (vp : List Char)
    (jobs : List ClipJob) (fs : List (List Char)) (p : List Char)
    (hp : p ∈ fs) :
    p ∈ process_row_fs true d vp jobs fs ∧
    (p ≠ vp → p ∈ process_row_fs false d vp jobs fs) := by
  have hrun : p ∈ (run_jobs d fs jobs).1 := run_jobs_mono d jobs fs p hp
  constructor
  · unfold process_row_fs row_cleanup
    simp only [Bool.true_eq_false, false_and, if_false]
    exact hrun
  · intro hne
    unfold process_row_fs row_cleanup
    split
    · exact (List.mem_erase_of_ne hne).mpr hrun
    · exact hrun

/-- Witness for C10: a local source file survives both a local-source row
and (being distinct from the temp path) a remote-source row. -/
theorem process_row_preserves_sources_witness :
    "src.mp4".data ∈ process_row_fs true 10 "tmp.mp4".data [] ["src.mp4".data] ∧
    "src.mp4".data ∈ process_row_fs false 10 "tmp.mp4".data [] ["src.mp4".data] :=
  ⟨(process_row_preserves_sources 10 "tmp.mp4".data [] ["src.mp4".data]
      "src.mp4".data (by decide)).1,
   (process_row_preserves_sources 10 "tmp.mp4".data [] ["src.mp4".data]
      "src.mp4".data (by decide)).2 (by decide)⟩

/-! ### Sanitization lemmas -/

theorem head?_dropWhile_not (p : Char → Bool) :
    ∀ (l : List Char) (c : Char), (l.dropWhile p).head? = some c → p c = false := by
  intro l
  induction l with
  | nil =>
    intro c h
    cases h
  | cons a t ih =>
    intro c h
    rw [List.dropWhile_cons] at h
    by_cases hp : p a = true
    · rw [if_pos hp] at h
      exact ih c h
    · rw [if_neg hp] at h
      rw [List.head?_cons] at h
      have : a = c := by injection h
      subst this
      exact Bool.eq_false_iff.mpr hp

theorem sanitize_nameL_eq (x : List Char) (hxe : x ≠ []) :
    sanitize_nameL x = if sanCore x = [] then "Unknown".data else sanCore x := by
  unfold sanitize_nameL sanCore nfkc
  rw [if_neg hxe]

theorem mem_pyStripList {a : Char} {l : List Char} (h : a ∈ pyStripList l) :
    a ∈ l := by
  unfold pyStripList at h
  rw [List.mem_reverse] at h
  have h2 := (List.dropWhile_sublist pyIsSpace).subset h
  rw [List.mem_reverse] at h2
  exact (List.dropWhile_sublist pyIsSpace).subset h2

theorem mem_pyRstripDotSpace {a : Char} {l : List Char}
    (h : a ∈ pyRstripDotSpace l) : a ∈ l := by
  unfold pyRstripDotSpace at h
  rw [List.mem_reverse] at h
  have h2 := (List.dropWhile_sublist (fun c => c == '.' || c == ' ')).subset h
  rwa [List.mem_reverse] at h2

theorem pyStripList_head_not_space (l : List Char) :
    ∀ c, (pyStripList l).head? = some c → pyIsSpace c = false := by
  intro c hc
  unfold pyStripList at hc
  have hsuf : List.IsSuffix ((l.dropWhile pyIsSpace).reverse.dropWhile pyIsSpace)
      (l.dropWhile pyIsSpace).reverse := List.dropWhile_suffix pyIsSpace
  have hpre : List.IsPrefix
      ((l.dropWhile pyIsSpace).reverse.dropWhile pyIsSpace).reverse
      (l.dropWhile pyIsSpace) := by
    have := List.reverse_prefix.mpr hsuf
    rwa [List.reverse_reverse] at this
  obtain ⟨t, ht⟩ := hpre
  cases he : ((l.dropWhile pyIsSpace).reverse.dropWhile pyIsSpace).reverse with
  | nil =>
    rw [he] at hc
    cases hc
  | cons b bs =>
    rw [he] at hc
    rw [List.head?_cons] at hc
    have hbc : b = c := by injection hc
    subst hbc
    rw [he] at ht
    have : (l.dropWhile pyIsSpace).head? = some b := by
      rw [← ht]
      rfl
    exact head?_dropWhile_not pyIsSpace l b this

theorem pyStripList_last_not_space (l : List Char) :
    ∀ c, (pyStripList l).reverse.head? = some c → pyIsSpace c = false := by
  intro c hc
  unfold pyStripList at hc
  rw [List.reverse_reverse] at hc
  exact head?_dropWhile_not pyIsSpace _ c hc

theorem pyRstripDotSpace_last (l : List Char) :
    ∀ c, (pyRstripDotSpace l).reverse.head? = some c →
      (c == '.' || c == ' ') = false := by
  intro c hc
  unfold pyRstripDotSpace at hc
  rw [List.reverse_reverse] at hc
  exact head?_dropWhile_not _ _ c hc

theorem rstrip_eq_self {l : List Char}
    (h : ∀ c, l.reverse.head? = some c → (c == '.' || c == ' ') = false) :
    pyRstripDotSpace l = l := by
  unfold pyRstripDotSpace
  cases hr : l.reverse with
  | nil =>
    have : l = [] := List.reverse_eq_nil_iff.mp hr
    subst this
    rfl
  | cons a t =>
    have ha := h a (by rw [hr, List.head?_cons])
    rw [List.dropWhile_cons, if_neg (by rw [ha]; exact Bool.false_ne_true)]
    rw [← hr, List.reverse_reverse]

theorem strip_eq_self_of {l : List Char}
    (h1 : ∀ c, l.head? = some c → pyIsSpace c = false)
    (h2 : ∀ c, l.reverse.head? = some c → pyIsSpace c = false) :
    pyStripList l = l := by
  unfold pyStripList
  have e1 : l.dropWhile pyIsSpace = l := by
    cases l with
    | nil => rfl
    | cons a t =>
      have := h1 a (by rw [List.head?_cons])
      rw [List.dropWhile_cons, if_neg (by rw [this]; exact Bool.false_ne_true)]
  rw [e1]
  have e2 : l.reverse.dropWhile pyIsSpace = l.reverse := by
    cases hr : l.reverse with
    | nil => rfl
    | cons a t =>
      have := h2 a (by rw [hr, List.head?_cons])
      rw [List.dropWhile_cons, if_neg (by rw [this]; exact Bool.false_ne_true)]
  rw [e2, List.reverse_reverse]

theorem printable_not_space {c : Char} (hp : pyIsPrintable c = true)
    (hs : c ≠ ' ') : pyIsSpace c = false := by
  cases h : pyIsSpace c
  · rfl
  · exfalso
    simp only [pyIsSpace, Bool.or_eq_true, beq_iff_eq] at h
    rcases h with ((((rfl | rfl) | rfl) | rfl) | rfl) | rfl
    · exact hs rfl
    · exact absurd hp (by decide)
    · exact absurd hp (by decide)
    · exact absurd hp (by decide)
    · exact absurd hp (by decide)
    · exact absurd hp (by decide)

theorem sanCore_eq_of_printable (x : List Char)
    (hx : ∀ c ∈ x, pyIsPrintable c = true) :
    sanCore x =
      pyStripList (pyRstripDotSpace (x.filter (fun c => !badChar c))) := by
  unfold sanCore
  congr 1
  apply List.filter_eq_self.mpr
  intro a ha
  exact hx a (List.mem_of_mem_filter (mem_pyRstripDotSpace ha))

theorem sanCore_last_not_ds (x : List Char)
    (hx : ∀ c ∈ x, pyIsPrintable c = true) :
    ∀ c, (sanCore x).reverse.head? = some c →
      (c == '.' || c == ' ') = false := by
  intro c hc
  rw [sanCore_eq_of_printable x hx] at hc
  have hrev : (pyStripList (pyRstripDotSpace (x.filter (fun c => !badChar c)))).reverse =
      ((pyRstripDotSpace (x.filter (fun c => !badChar c))).dropWhile
        pyIsSpace).reverse.dropWhile pyIsSpace := by
    unfold pyStripList
    rw [List.reverse_reverse]
  rw [hrev] at hc
  have hpre : List.IsPrefix
      ((pyRstripDotSpace (x.filter (fun c => !badChar c))).dropWhile
        pyIsSpace).reverse
      (pyRstripDotSpace (x.filter (fun c => !badChar c))).reverse :=
    List.reverse_prefix.mpr (List.dropWhile_suffix pyIsSpace)
  cases hu : ((pyRstripDotSpace (x.filter (fun c => !badChar c))).dropWhile
      pyIsSpace).reverse with
  | nil =>
    rw [hu] at hc
    cases hc
  | cons e es =>
    obtain ⟨t, ht⟩ := hpre
    rw [hu] at ht
    have hds : (e == '.' || e == ' ') = false := by
      apply pyRstripDotSpace_last (x.filter (fun c => !badChar c)) e
      rw [← ht, List.cons_append, List.head?_cons]
    have he3 : e ∈ pyRstripDotSpace (x.filter (fun c => !badChar c)) := by
      rw [← List.mem_reverse, ← ht]
      exact List.mem_append_left _ (List.mem_cons_self _ _)
    have hep : pyIsPrintable e = true :=
      hx e (List.mem_of_mem_filter (mem_pyRstripDotSpace he3))
    have hesp : pyIsSpace e = false := by
      refine printable_not_space hep ?_
      intro h
      subst h
      exact absurd hds (by decide)
    rw [hu, List.dropWhile_cons,
      if_neg (by rw [hesp]; exact Bool.false_ne_true), List.head?_cons] at hc
    have : e = c := by injection hc
    subst this
    exact hds

theorem sanCore_fixpoint (y : List Char)
    (hpr : ∀ c ∈ y, pyIsPrintable c = true)
    (hnb : ∀ c ∈ y, (!badChar c) = true)
    (hds : ∀ c, y.reverse.head? = some c → (c == '.' || c == ' ') = false)
    (hh1 : ∀ c, y.head? = some c → pyIsSpace c = false)
    (hh2 : ∀ c, y.reverse.head? = some c → pyIsSpace c = false) :
    sanCore y = y := by
  unfold sanCore
  rw [List.filter_eq_self.mpr hnb, rstrip_eq_self hds,
    List.filter_eq_self.mpr hpr]
  exact strip_eq_self_of hh1 hh2

theorem sanCore_sanCore (x : List Char)
    (hx : ∀ c ∈ x, pyIsPrintable c = true) :
    sanCore (sanCore x) = sanCore x := by
  have hpr : ∀ c ∈ sanCore x, pyIsPrintable c = true := by
    intro c hc
    exact List.of_mem_filter (mem_pyStripList hc)
  have hnb : ∀ c ∈ sanCore x, (!badChar c) = true := by
    intro c hc
    exact (List.mem_filter.mp
      (mem_pyRstripDotSpace (List.mem_of_mem_filter (mem_pyStripList hc)))).2
  exact sanCore_fixpoint (sanCore x) hpr hnb (sanCore_last_not_ds x hx)
    (pyStripList_head_not_space _) (pyStripList_last_not_space _)

/-- Claim C7 counterexample: sanitization is not idempotent — for
`['a', '.', \x01]` the printable filter (which runs after the trailing-dot
strip) exposes a trailing dot, so the first pass returns `a.` and a second
pass strips further to `a`. -/
theorem sanitize_name_not_idempotent :
    sanitize_nameL ['a', '.', Char.ofNat 1] = ['a', '.'] ∧
    sanitize_nameL (sanitize_nameL ['a', '.', Char.ofNat 1]) ≠
      sanitize_nameL ['a', '.', Char.ofNat 1] :=
  ⟨by decide, by decide⟩

/-- Claim C7 as amended: sanitization is idempotent on every string all of
whose characters are printable (for inputs with unprintable characters the
printable filter can expose a new trailing dot, see the counterexample). -/
theorem sanitize_name_idempotent_printable (x : List Char)
    (hx : ∀ c ∈ x, pyIsPrintable c = true) :
    sanitize_nameL (sanitize_nameL x) = sanitize_nameL x := by
  by_cases hxe : x = []
  · subst hxe
    decide
  · rw [sanitize_nameL_eq x hxe]
    by_cases hY : sanCore x = []
    · rw [if_pos hY]
      decide
    · rw [if_neg hY, sanitize_nameL_eq (sanCore x) hY, sanCore_sanCore x hx,
        if_neg hY]

/-- Witness for the amended C7 on the printable string `a.b`. -/
theorem sanitize_name_idempotent_printable_witness :
    sanitize_nameL (sanitize_nameL ['a', '.', 'b']) =
      sanitize_nameL ['a', '.', 'b'] :=
  sanitize_name_idempotent_printable ['a', '.', 'b'] (by decide)

/-- Claim C8: sanitization is total and never returns the empty string, and
both the empty string and a string of only removed characters map to the
literal fallback `Unknown`. -/
theorem sanitize_name_total_nonempty (x : List Char) :
    sanitize_nameL x ≠ [] ∧
    sanitize_nameL [] = "Unknown".data ∧
    sanitize_nameL "///???".data = "Unknown".data := by
  refine ⟨?_, by decide, by decide⟩
  by_cases h1 : x = []
  · rw [h1]
    decide
  · rw [sanitize_nameL_eq x h1]
    by_cases h2 : sanCore x = []
    · rw [if_pos h2]
      decide
    · rw [if_neg h2]
      exact h2

/-- Witness for C8 at a concrete input. -/
theorem sanitize_name_total_nonempty_witness :
    sanitize_nameL ['a'] ≠ [] :=
  (sanitize_name_total_nonempty ['a']).1

/-! ### Upload-date normalization -/

/-- Claim C9 counterexample: a raw upload date that is too short to slice
(here `2023`) is not left as the raw string — the report shows the empty
string instead. -/
theorem upload_date_short_not_raw :
    normalize_upload_date (some "2023".data) = [] ∧
    "2023".data ≠ ([] : List Char) :=
  ⟨by decide, by decide⟩

/-- Claim C9 as amended: any raw string of length at least 8 is rearranged
to `raw[6:8]-raw[4:6]-raw[0:4]` (which is `DD-MM-YYYY` for an 8-digit
`YYYYMMDD` date, but is applied to any long-enough string); every other raw
value (absent, or shorter than 8) yields the empty string, not the raw
string. -/
theorem normalize_upload_date_spec (y m d s r : List Char)
    (hy : y.length = 4) (hm : m.length = 2) (hd : d.length = 2)
    (hs : s.length < 8) (hr : 8 ≤ r.length) :
    normalize_upload_date (some r) =
      pySlice 6 8 r ++ "-".data ++ pySlice 4 6 r ++ "-".data ++ pySlice 0 4 r ∧
    normalize_upload_date (some (y ++ m ++ d)) =
      d ++ "-".data ++ m ++ "-".data ++ y ∧
    normalize_upload_date (some s) = [] ∧
    normalize_upload_date none = [] := by
  refine ⟨?_, ?_, ?_, rfl⟩
  · have hne : r ≠ [] := by
      intro h
      subst h
      simp at hr
    unfold normalize_upload_date
    simp only
    rw [if_pos ⟨hne, hr⟩]
  · have hym : (y ++ m).length = 6 := by
      rw [List.length_append, hy, hm]
    have hlen : (y ++ m ++ d).length = 8 := by
      rw [List.length_append, hym, hd]
    have hne : y ++ m ++ d ≠ [] := by
      intro h
      rw [h] at hlen
      cases hlen
    unfold normalize_upload_date
    simp only
    rw [if_pos ⟨hne, by omega⟩]
    have e1 : pySlice 6 8 (y ++ m ++ d) = d := by
      unfold pySlice
      have ht : (y ++ m ++ d).take 8 = y ++ m ++ d := by
        rw [show (8 : Nat) = (y ++ m ++ d).length from hlen.symm, List.take_length]
      rw [ht, List.drop_left' hym]
    have e2 : pySlice 4 6 (y ++ m ++ d) = m := by
      unfold pySlice
      rw [List.take_left' hym, List.drop_left' hy]
    have e3 : pySlice 0 4 (y ++ m ++ d) = y := by
      unfold pySlice
      rw [List.append_assoc, List.take_left' hy, List.drop_zero]
    rw [e1, e2, e3]
  · unfold normalize_upload_date
    simp only
    rw [if_neg]
    intro h
    omega

/-- Witness for the amended C9: the 9-character raw value `20230415X` is
rearranged by slices, and the 8-digit date `20230415` becomes `15-04-2023`. -/
theorem normalize_upload_date_spec_witness :
    normalize_upload_date (some "20230415X".data) = "15-04-2023".data ∧
    normalize_upload_date (some "20230415".data) = "15-04-2023".data := by
  have h := normalize_upload_date_spec "2023".data "04".data "15".data []
    "20230415X".data (by decide) (by decide) (by decide) (by decide) (by decide)
  refine ⟨h.1.trans (by decide), ?_⟩
  exact (by decide : normalize_upload_date (some "20230415".data) =
    normalize_upload_date (some ("2023".data ++ "04".data ++ "15".data))).trans
    (h.2.1.trans (by decide))
